import Mathlib

/-!
# Verification of the version-lineage reconciliation engine

Shallow embedding of the core of the `bi-dashboard` repository:
the version model (`src/server/pmh.js` and `src/server/hotfix-booking.js`),
the hotfix-flagging engine (`shouldFlagStory`), the booking ledger with
reconciliation and next-version computation (`calculateNextVersion`, the
`/hotfix-booking/book` route), the client×component version matrix, and
the history windowing, together with theorems settling the specification
claims about them.
-/

namespace BiDash

/-- A parsed semantic version: an immutable triple of non-negative integers. -/
structure Version where
  major : Nat
  minor : Nat
  patch : Nat
deriving DecidableEq, Repr

/-- Value of a decimal digit string (list of digit characters), as computed by
`parseInt(s, 10)` on an all-digit string. -/
def digitsToNat (l : List Char) : Nat :=
  l.foldl (fun n c => n * 10 + (c.toNat - 48)) 0

/-- Split a character list on `'.'` separators, the semantics shared by the
regex groups of `/^(\d+)\.(\d+)\.(\d+)$/` and by JavaScript
`String.prototype.split('.')`: `n` dots yield `n+1` (possibly empty) parts. -/
def splitDots : List Char → List (List Char)
  | [] => [[]]
  | c :: rest =>
    if c = '.' then [] :: splitDots rest
    else
      match splitDots rest with
      | [] => [[c]]
      | h :: t => (c :: h) :: t

/-- A nonempty string of decimal digits, i.e. what `\d+` matches. -/
def isDigits (l : List Char) : Bool :=
  !l.isEmpty && l.all (fun c => c.isDigit)

/-- `parseVersion` of `src/server/pmh.js`: `null` for a falsy argument, then a
full match against `/^(\d+)\.(\d+)\.(\d+)$/`; the three groups are read with
`parseInt(_, 10)`. -/
def parseVersion (s : String) : Option Version :=
  if s = "" then none
  else
    match splitDots s.data with
    | [a, b, c] =>
      if isDigits a && isDigits b && isDigits c then
        some ⟨digitsToNat a, digitsToNat b, digitsToNat c⟩
      else none
    | _ => none

/-- The test `/^\d+\.\d+\.\d+$/.test(v)` used throughout
`src/server/hotfix-booking.js` to recognise well-formed version strings. -/
def isVersionString (s : String) : Bool :=
  match splitDots s.data with
  | [a, b, c] => isDigits a && isDigits b && isDigits c
  | _ => false

/-- The numeric value a component contributes in `parts[i] || 0` after
`version.split('.').map(Number)` in `src/server/hotfix-booking.js`:
`Number("")` is `0`, an all-digit component is its decimal value, and a
non-numeric component gives `NaN`, which `|| 0` turns into `0`.  (`Number` is
modelled on the dot-free components arising here: decimal digit strings,
the empty string, and non-numeric junk; exotic numeric literal forms such as
signs, hex or exponents do not occur in version tags.) -/
def jsNumOrZero (l : List Char) : Nat :=
  if l.isEmpty then 0
  else if l.all (fun c => c.isDigit) then digitsToNat l
  else 0

/-- `parseVersion` of `src/server/hotfix-booking.js`: lenient split-based
parsing.  `version.split('.').map(Number)` then
`{ major: parts[0] || 0, minor: parts[1] || 0, patch: parts[2] || 0 }` —
missing components default to `0`, extra components are dropped, and it never
returns `null`. -/
def hbParseVersion (s : String) : Version :=
  match splitDots s.data with
  | [] => ⟨0, 0, 0⟩
  | [a] => ⟨jsNumOrZero a, 0, 0⟩
  | [a, b] => ⟨jsNumOrZero a, jsNumOrZero b, 0⟩
  | a :: b :: c :: _ => ⟨jsNumOrZero a, jsNumOrZero b, jsNumOrZero c⟩

/-- `compareVersions` of `src/server/hotfix-booking.js`: positive if `a > b`,
negative if `a < b`, `0` if equal, comparing major, then minor, then patch. -/
def compareVersions (a b : String) : Int :=
  let vA := hbParseVersion a
  let vB := hbParseVersion b
  if vA.major ≠ vB.major then (vA.major : Int) - (vB.major : Int)
  else if vA.minor ≠ vB.minor then (vA.minor : Int) - (vB.minor : Int)
  else (vA.patch : Int) - (vB.patch : Int)

/-- The Version total order of the specification: lexicographic by
(major, minor, patch). -/
def vle (x y : Version) : Prop :=
  x.major < y.major ∨
    (x.major = y.major ∧
      (x.minor < y.minor ∨ (x.minor = y.minor ∧ x.patch ≤ y.patch)))

instance (x y : Version) : Decidable (vle x y) := by
  unfold vle; infer_instance

theorem vle_refl (x : Version) : vle x x := by
  unfold vle; omega

theorem vle_trans {x y z : Version} (h₁ : vle x y) (h₂ : vle y z) : vle x z := by
  unfold vle at *; omega

theorem vle_total (x y : Version) : vle x y ∨ vle y x := by
  unfold vle; omega

theorem vle_antisymm {x y : Version} (h₁ : vle x y) (h₂ : vle y x) : x = y := by
  obtain ⟨a, b, c⟩ := x
  obtain ⟨d, e, f⟩ := y
  unfold vle at h₁ h₂
  simp only at h₁ h₂
  simp only [Version.mk.injEq]
  omega

/-- The comparator is non-positive exactly when the parsed versions are in
the specification's total order. -/
theorem compareVersions_le_iff (a b : String) :
    compareVersions a b ≤ 0 ↔ vle (hbParseVersion a) (hbParseVersion b) := by
  unfold compareVersions vle
  obtain ⟨x1, x2, x3⟩ := hbParseVersion a
  obtain ⟨y1, y2, y3⟩ := hbParseVersion b
  simp only
  split <;> rename_i h1
  · omega
  · split <;> rename_i h2
    · omega
    · omega

theorem compareVersions_pos_iff (a b : String) :
    0 < compareVersions a b ↔ ¬ vle (hbParseVersion a) (hbParseVersion b) := by
  rw [← compareVersions_le_iff]; omega

/-! ## Structure of `splitDots` -/

theorem splitDots_cons (c : Char) (rest : List Char) :
    splitDots (c :: rest) =
      if c = '.' then [] :: splitDots rest
      else
        match splitDots rest with
        | [] => [[c]]
        | h :: t => (c :: h) :: t := rfl

theorem splitDots_ne_nil (l : List Char) : splitDots l ≠ [] := by
  induction l with
  | nil => simp [splitDots]
  | cons c rest ih =>
    rw [splitDots_cons]
    split
    · simp
    · match h : splitDots rest with
      | [] => simp
      | h' :: t => simp

theorem splitDots_exists_cons (l : List Char) :
    ∃ h t, splitDots l = h :: t := by
  match hs : splitDots l with
  | [] => exact absurd hs (splitDots_ne_nil l)
  | h :: t => exact ⟨h, t, rfl⟩

/-- Inverse of `splitDots`: interpose `'.'` between the parts. -/
def joinDots : List (List Char) → List Char
  | [] => []
  | [p] => p
  | p :: q :: rest => p ++ '.' :: joinDots (q :: rest)

theorem joinDots_splitDots (l : List Char) : joinDots (splitDots l) = l := by
  induction l with
  | nil => rfl
  | cons c rest ih =>
    obtain ⟨h, t, hs⟩ := splitDots_exists_cons rest
    rw [splitDots_cons]
    split <;> rename_i hc
    · subst hc
      rw [hs]
      rw [hs] at ih
      simp only [joinDots, List.nil_append]
      rw [ih]
    · rw [hs]
      rw [hs] at ih
      cases t with
      | nil =>
        simp only [joinDots] at ih ⊢
        rw [ih]
      | cons q t' =>
        simp only [joinDots, List.cons_append] at ih ⊢
        rw [ih]

theorem splitDots_dotfree {l : List Char} (h : ∀ c ∈ l, c ≠ '.') :
    splitDots l = [l] := by
  induction l with
  | nil => rfl
  | cons c rest ih =>
    rw [splitDots_cons]
    have hc : c ≠ '.' := h c (by simp)
    rw [if_neg hc, ih fun x hx => h x (by simp [hx])]

theorem splitDots_append {x : List Char} (rest : List Char)
    (hx : ∀ c ∈ x, c ≠ '.') :
    splitDots (x ++ '.' :: rest) = x :: splitDots rest := by
  induction x with
  | nil => simp [splitDots_cons]
  | cons c x' ih =>
    have hc : c ≠ '.' := hx c (by simp)
    simp only [List.cons_append]
    rw [splitDots_cons, if_neg hc, ih fun a ha => hx a (by simp [ha])]

theorem isDigits_ne_nil {l : List Char} (h : isDigits l = true) : l ≠ [] := by
  unfold isDigits at h
  simp only [Bool.and_eq_true, Bool.not_eq_true'] at h
  intro hnil
  subst hnil
  simp [List.isEmpty] at h

theorem isDigits_dotfree {l : List Char} (h : isDigits l = true) :
    ∀ c ∈ l, c ≠ '.' := by
  unfold isDigits at h
  simp only [Bool.and_eq_true, List.all_eq_true] at h
  intro c hc heq
  have := h.2 c hc
  subst heq
  simp [Char.isDigit] at this

/-- C7 (amended): the strict `parseVersion` of `src/server/pmh.js` returns
`some (a, b, c)` exactly when the string has the shape `"a.b.c"` with `a`,
`b`, `c` nonempty decimal digit sequences (a full match of
`^\d+\.\d+\.\d+$`), the components read as decimal numerals; on every other
string it returns `none`, and being a total function it never throws.
(The split-based `parseVersion` of `src/server/hotfix-booking.js` does not
satisfy this: it never returns `null` — see the counterexample.) -/
theorem parseVersion_shape_iff (s : String) (v : Version) :
    parseVersion s = some v ↔
      ∃ x y z : List Char,
        s.data = x ++ '.' :: (y ++ '.' :: z) ∧
        isDigits x = true ∧ isDigits y = true ∧ isDigits z = true ∧
        v = ⟨digitsToNat x, digitsToNat y, digitsToNat z⟩ := by
  constructor
  · intro h
    unfold parseVersion at h
    split at h
    · exact Option.noConfusion h
    · rename_i hs
      split at h
      · rename_i a b c hsplit
        split at h
        · rename_i hdig
          simp only [Option.some.injEq] at h
          simp only [Bool.and_eq_true] at hdig
          refine ⟨a, b, c, ?_, hdig.1.1, hdig.1.2, hdig.2, h.symm⟩
          have hj := joinDots_splitDots s.data
          rw [hsplit] at hj
          simp only [joinDots] at hj
          rw [← hj]
        · exact Option.noConfusion h
      · exact Option.noConfusion h
  · rintro ⟨x, y, z, hdata, hx, hy, hz, hv⟩
    have hsplit : splitDots s.data = [x, y, z] := by
      rw [hdata, splitDots_append _ (isDigits_dotfree hx),
        splitDots_append _ (isDigits_dotfree hy),
        splitDots_dotfree (isDigits_dotfree hz)]
    have hs : ¬ s = "" := by
      intro h
      subst h
      have : ("" : String).data = [] := rfl
      rw [this] at hdata
      exact absurd hdata.symm (by simp [isDigits_ne_nil hx])
    unfold parseVersion
    rw [if_neg hs, hsplit]
    simp [hx, hy, hz, hv]

/-- C7 counterexample: the claim cites both `parseVersion` implementations,
but the split-based one in `src/server/hotfix-booking.js` is lenient: on the
non-matching string `"1.2"` (a missing component) it produces the triple
`(1, 2, 0)` instead of the `null` the claim requires (it never returns
`null`), while the strict `parseVersion` of `src/server/pmh.js` returns
`none` there. -/
theorem hbParseVersion_lenient_counterexample :
    hbParseVersion "1.2" = ⟨1, 2, 0⟩ ∧ parseVersion "1.2" = none := by
  constructor <;> decide

/-! ## The hotfix-flagging engine (`shouldFlagStory` of `src/server/pmh.js`) -/

/-- The loop state of `shouldFlagStory`: the two running maxima and the
exact-target flag. -/
structure FlagState where
  maxHotfixMinor : Option Nat
  maxReleaseMinorBeforeTarget : Option Nat
  hasTargetVersion : Bool
deriving DecidableEq, Repr

/-- `if parsed.major === target.major && parsed.minor === target.minor &&
parsed.patch === target.patch` then set `hasTargetVersion = true`. -/
def targetUpd (target parsed : Version) (st : FlagState) : FlagState :=
  if parsed.major = target.major ∧ parsed.minor = target.minor ∧
      parsed.patch = target.patch then
    { st with hasTargetVersion := true }
  else st

/-- The conditional assignment
`if (cur === null || n > cur) cur = n` of the loop. -/
def bumpMax (cur : Option Nat) (n : Nat) : Option Nat :=
  match cur with
  | none => some n
  | some m => if m < n then some n else some m

/-- The release/hotfix categorisation of one parsed tag: a release point
(`patch == 0`) bumps `maxReleaseMinorBeforeTarget` when `minor <= target.minor`
and strictly greater than the current maximum; a hotfix point bumps
`maxHotfixMinor` when `minor < target.minor` strictly. -/
def minorUpd (target parsed : Version) (st : FlagState) : FlagState :=
  if parsed.patch = 0 then
    if parsed.minor ≤ target.minor then
      { st with maxReleaseMinorBeforeTarget :=
          bumpMax st.maxReleaseMinorBeforeTarget parsed.minor }
    else st
  else
    if parsed.minor < target.minor then
      { st with maxHotfixMinor := bumpMax st.maxHotfixMinor parsed.minor }
    else st

/-- One iteration of the `for (const fv of fixVersions)` loop: unparseable
tags `continue`, tags with `parsed.major < targetParsed.major` `continue`,
the rest update the state. -/
def flagStep (target : Version) (st : FlagState) (name : String) : FlagState :=
  match parseVersion name with
  | none => st
  | some parsed =>
    if parsed.major < target.major then st
    else minorUpd target parsed (targetUpd target parsed st)

/-- The return expression of `shouldFlagStory`:
`maxHotfixMinor !== null && (maxReleaseMinorBeforeTarget === null ||
maxHotfixMinor > maxReleaseMinorBeforeTarget) && !hasTargetVersion`. -/
def flagResult (st : FlagState) : Bool :=
  match st.maxHotfixMinor with
  | none => false
  | some h =>
    (match st.maxReleaseMinorBeforeTarget with
     | none => true
     | some r => decide (r < h)) && !st.hasTargetVersion

/-- `shouldFlagStory` of `src/server/pmh.js`, over the list of tag names. -/
def shouldFlagStory (fixVersions : List String) (targetParsed : Version) : Bool :=
  if fixVersions.isEmpty then false
  else
    flagResult (fixVersions.foldl (flagStep targetParsed) ⟨none, none, false⟩)

/-- The minor a tag contributes to `maxHotfixMinor`: it must parse, have
major not below the target's, be a hotfix point, and have minor strictly
below the target's. -/
def hotfixMinorContrib (target : Version) (s : String) : Option Nat :=
  match parseVersion s with
  | some p =>
    if target.major ≤ p.major ∧ p.patch ≠ 0 ∧ p.minor < target.minor then
      some p.minor
    else none
  | none => none

/-- The minor a tag contributes to `maxReleaseMinorBeforeTarget`: it must
parse, have major not below the target's, be a release point, and have minor
at most the target's. -/
def releaseMinorContrib (target : Version) (s : String) : Option Nat :=
  match parseVersion s with
  | some p =>
    if target.major ≤ p.major ∧ p.patch = 0 ∧ p.minor ≤ target.minor then
      some p.minor
    else none
  | none => none

/-- Minors of the qualifying hotfix-point tags, in tag order. -/
def hotfixMinors (tags : List String) (target : Version) : List Nat :=
  tags.filterMap (hotfixMinorContrib target)

/-- Minors of the qualifying release-point tags, in tag order. -/
def releaseMinors (tags : List String) (target : Version) : List Nat :=
  tags.filterMap (releaseMinorContrib target)

/-- Whether a tag parses to exactly the target version. -/
def isTargetTag (target : Version) (s : String) : Bool :=
  decide (parseVersion s = some target)

/-- Maximum of a list of naturals, `none` on the empty list. -/
def listMax : List Nat → Option Nat
  | [] => none
  | x :: xs =>
    match listMax xs with
    | none => some x
    | some m => some (max x m)

/-- Merge of two optional maxima. -/
def omax : Option Nat → Option Nat → Option Nat
  | none, b => b
  | some a, none => some a
  | some a, some b => some (max a b)

theorem omax_none_right (a : Option Nat) : omax a none = a := by
  cases a <;> rfl

theorem omax_assoc (a b c : Option Nat) :
    omax (omax a b) c = omax a (omax b c) := by
  cases a <;> cases b <;> cases c <;> simp [omax, Nat.max_assoc]

theorem listMax_cons (x : Nat) (l : List Nat) :
    listMax (x :: l) = omax (some x) (listMax l) := by
  show (match listMax l with
        | none => some x
        | some m => some (max x m)) = omax (some x) (listMax l)
  cases h : listMax l <;> rfl

theorem listMax_eq_none_iff (l : List Nat) : listMax l = none ↔ l = [] := by
  cases l with
  | nil => simp [listMax]
  | cons x xs =>
    simp only [listMax]
    cases h : listMax xs <;> simp

theorem listMax_eq_some_iff (l : List Nat) (m : Nat) :
    listMax l = some m ↔ m ∈ l ∧ ∀ x ∈ l, x ≤ m := by
  induction l generalizing m with
  | nil => simp [listMax]
  | cons y ys ih =>
    simp only [listMax]
    cases h : listMax ys with
    | none =>
      have hnil : ys = [] := (listMax_eq_none_iff ys).mp h
      subst hnil
      simp only [Option.some.injEq, List.mem_cons, List.not_mem_nil, or_false]
      constructor
      · rintro rfl
        exact ⟨rfl, by simp⟩
      · rintro ⟨hm, hub⟩
        subst hm
        rfl
    | some k =>
      replace h := (ih k).mp h
      show some (max y k) = some m ↔ m ∈ y :: ys ∧ ∀ x ∈ y :: ys, x ≤ m
      constructor
      · rintro hmax
        simp only [Option.some.injEq] at hmax
        subst hmax
        rcases Nat.le_total y k with hle | hle
        · rw [Nat.max_eq_right hle]
          exact ⟨List.mem_cons_of_mem y h.1, by
            intro x hx
            rcases List.mem_cons.mp hx with rfl | hx
            · exact hle
            · exact h.2 x hx⟩
        · rw [Nat.max_eq_left hle]
          exact ⟨List.mem_cons_self y ys, by
            intro x hx
            rcases List.mem_cons.mp hx with rfl | hx
            · exact le_rfl
            · exact le_trans (h.2 x hx) hle⟩
      · rintro ⟨hm, hub⟩
        have h1 : max y k ≤ m := by
          have hy := hub y (List.mem_cons_self y ys)
          have hk := hub k (List.mem_cons_of_mem y h.1)
          omega
        have h2 : m ≤ max y k := by
          rcases List.mem_cons.mp hm with rfl | hmem
          · exact Nat.le_max_left _ _
          · exact le_trans (h.2 m hmem) (Nat.le_max_right _ _)
        rw [Nat.le_antisymm h1 h2]

/-! ## Field behaviour of one flagging-loop iteration -/

theorem bumpMax_eq_omax (cur : Option Nat) (n : Nat) :
    bumpMax cur n = omax cur (some n) := by
  cases cur with
  | none => rfl
  | some m =>
    show (if m < n then some n else some m) = some (max m n)
    split <;> rename_i h
    · rw [Nat.max_eq_right (by omega)]
    · rw [Nat.max_eq_left (by omega)]

theorem version_eq_iff (p t : Version) :
    (p.major = t.major ∧ p.minor = t.minor ∧ p.patch = t.patch) ↔ p = t := by
  obtain ⟨a, b, c⟩ := p
  obtain ⟨d, e, f⟩ := t
  simp [Version.mk.injEq]

theorem targetUpd_maxHotfix (target p : Version) (st : FlagState) :
    (targetUpd target p st).maxHotfixMinor = st.maxHotfixMinor := by
  unfold targetUpd
  split <;> rfl

theorem targetUpd_maxRelease (target p : Version) (st : FlagState) :
    (targetUpd target p st).maxReleaseMinorBeforeTarget
      = st.maxReleaseMinorBeforeTarget := by
  unfold targetUpd
  split <;> rfl

theorem targetUpd_hasTarget (target p : Version) (st : FlagState) :
    (targetUpd target p st).hasTargetVersion
      = (st.hasTargetVersion || decide (p = target)) := by
  unfold targetUpd
  split <;> rename_i h
  · simp [(version_eq_iff p target).mp h]
  · rw [version_eq_iff] at h
    simp [h]

theorem minorUpd_hasTarget (target p : Version) (st : FlagState) :
    (minorUpd target p st).hasTargetVersion = st.hasTargetVersion := by
  unfold minorUpd
  repeat' split
  all_goals rfl

theorem minorUpd_maxHotfix (target p : Version) (st : FlagState) :
    (minorUpd target p st).maxHotfixMinor =
      omax st.maxHotfixMinor
        (if p.patch ≠ 0 ∧ p.minor < target.minor then some p.minor else none) := by
  unfold minorUpd
  by_cases hp0 : p.patch = 0
  · have hc : (if p.patch ≠ 0 ∧ p.minor < target.minor then
        some p.minor else none) = none := if_neg (fun h => h.1 hp0)
    rw [hc, if_pos hp0, omax_none_right]
    split <;> rfl
  · rw [if_neg hp0]
    by_cases hm : p.minor < target.minor
    · have hc : (if p.patch ≠ 0 ∧ p.minor < target.minor then
          some p.minor else none) = some p.minor := if_pos ⟨hp0, hm⟩
      rw [hc, if_pos hm]
      exact bumpMax_eq_omax st.maxHotfixMinor p.minor
    · have hc : (if p.patch ≠ 0 ∧ p.minor < target.minor then
          some p.minor else none) = none := if_neg (fun h => hm h.2)
      rw [hc, if_neg hm, omax_none_right]

theorem minorUpd_maxRelease (target p : Version) (st : FlagState) :
    (minorUpd target p st).maxReleaseMinorBeforeTarget =
      omax st.maxReleaseMinorBeforeTarget
        (if p.patch = 0 ∧ p.minor ≤ target.minor then some p.minor else none) := by
  unfold minorUpd
  by_cases hp0 : p.patch = 0
  · rw [if_pos hp0]
    by_cases hm : p.minor ≤ target.minor
    · have hc : (if p.patch = 0 ∧ p.minor ≤ target.minor then
          some p.minor else none) = some p.minor := if_pos ⟨hp0, hm⟩
      rw [hc, if_pos hm]
      exact bumpMax_eq_omax st.maxReleaseMinorBeforeTarget p.minor
    · have hc : (if p.patch = 0 ∧ p.minor ≤ target.minor then
          some p.minor else none) = none := if_neg (fun h => hm h.2)
      rw [hc, if_neg hm, omax_none_right]
  · have hc : (if p.patch = 0 ∧ p.minor ≤ target.minor then
        some p.minor else none) = none := if_neg (fun h => hp0 h.1)
    rw [hc, if_neg hp0, omax_none_right]
    split <;> rfl

theorem flagStep_maxHotfix (target : Version) (st : FlagState) (s : String) :
    (flagStep target st s).maxHotfixMinor
      = omax st.maxHotfixMinor (hotfixMinorContrib target s) := by
  unfold flagStep hotfixMinorContrib
  cases hp : parseVersion s with
  | none => exact (omax_none_right _).symm
  | some p =>
    dsimp only
    by_cases hmaj : p.major < target.major
    · have hc : (if target.major ≤ p.major ∧ p.patch ≠ 0 ∧
          p.minor < target.minor then some p.minor else none) = none :=
        if_neg (fun h => by omega)
      rw [hc, if_pos hmaj, omax_none_right]
    · rw [if_neg hmaj, minorUpd_maxHotfix, targetUpd_maxHotfix]
      congr 1
      by_cases h : p.patch ≠ 0 ∧ p.minor < target.minor
      · rw [if_pos h, if_pos ⟨by omega, h.1, h.2⟩]
      · rw [if_neg h, if_neg (fun hc => h ⟨hc.2.1, hc.2.2⟩)]

theorem flagStep_maxRelease (target : Version) (st : FlagState) (s : String) :
    (flagStep target st s).maxReleaseMinorBeforeTarget
      = omax st.maxReleaseMinorBeforeTarget (releaseMinorContrib target s) := by
  unfold flagStep releaseMinorContrib
  cases hp : parseVersion s with
  | none => exact (omax_none_right _).symm
  | some p =>
    dsimp only
    by_cases hmaj : p.major < target.major
    · have hc : (if target.major ≤ p.major ∧ p.patch = 0 ∧
          p.minor ≤ target.minor then some p.minor else none) = none :=
        if_neg (fun h => by omega)
      rw [hc, if_pos hmaj, omax_none_right]
    · rw [if_neg hmaj, minorUpd_maxRelease, targetUpd_maxRelease]
      congr 1
      by_cases h : p.patch = 0 ∧ p.minor ≤ target.minor
      · rw [if_pos h, if_pos ⟨by omega, h.1, h.2⟩]
      · rw [if_neg h, if_neg (fun hc => h ⟨hc.2.1, hc.2.2⟩)]

theorem flagStep_hasTarget (target : Version) (st : FlagState) (s : String) :
    (flagStep target st s).hasTargetVersion
      = (st.hasTargetVersion || isTargetTag target s) := by
  unfold flagStep isTargetTag
  cases hp : parseVersion s with
  | none => simp
  | some p =>
    dsimp only
    by_cases hmaj : p.major < target.major
    · have hne : p ≠ target := by
        intro h
        subst h
        omega
      rw [if_pos hmaj]
      simp [hne]
    · rw [if_neg hmaj, minorUpd_hasTarget, targetUpd_hasTarget]
      simp

/-- The loop of `shouldFlagStory` computes, field by field, the maximum
qualifying hotfix minor, the maximum qualifying release minor, and whether
some tag is exactly the target. -/
theorem foldl_flagStep (target : Version) (l : List String) (st : FlagState) :
    (l.foldl (flagStep target) st).maxHotfixMinor
        = omax st.maxHotfixMinor (listMax (hotfixMinors l target)) ∧
      (l.foldl (flagStep target) st).maxReleaseMinorBeforeTarget
        = omax st.maxReleaseMinorBeforeTarget (listMax (releaseMinors l target)) ∧
      (l.foldl (flagStep target) st).hasTargetVersion
        = (st.hasTargetVersion || l.any (isTargetTag target)) := by
  induction l generalizing st with
  | nil =>
    refine ⟨?_, ?_, ?_⟩ <;>
      simp [hotfixMinors, releaseMinors, listMax, omax_none_right]
  | cons s l ih =>
    simp only [List.foldl_cons, List.any_cons]
    obtain ⟨ih1, ih2, ih3⟩ := ih (flagStep target st s)
    refine ⟨?_, ?_, ?_⟩
    · rw [ih1, flagStep_maxHotfix, omax_assoc]
      congr 1
      unfold hotfixMinors
      rw [List.filterMap_cons]
      cases hcs : hotfixMinorContrib target s with
      | none => rfl
      | some m =>
        show omax (some m) (listMax (List.filterMap (hotfixMinorContrib target) l))
          = listMax (m :: List.filterMap (hotfixMinorContrib target) l)
        exact (listMax_cons m _).symm
    · rw [ih2, flagStep_maxRelease, omax_assoc]
      congr 1
      unfold releaseMinors
      rw [List.filterMap_cons]
      cases hcs : releaseMinorContrib target s with
      | none => rfl
      | some m =>
        show omax (some m) (listMax (List.filterMap (releaseMinorContrib target) l))
          = listMax (m :: List.filterMap (releaseMinorContrib target) l)
        exact (listMax_cons m _).symm
    · rw [ih3, flagStep_hasTarget, Bool.or_assoc]

theorem any_isTargetTag_false_iff (tags : List String) (target : Version) :
    (tags.any (isTargetTag target) = false) ↔
      (∀ s ∈ tags, parseVersion s ≠ some target) := by
  constructor
  · intro h s hs hc
    have htrue : tags.any (isTargetTag target) = true :=
      List.any_eq_true.mpr ⟨s, hs, by simp [isTargetTag, hc]⟩
    rw [h] at htrue
    exact Bool.noConfusion htrue
  · intro h
    cases hval : tags.any (isTargetTag target) with
    | false => rfl
    | true =>
      obtain ⟨s, hs, hdec⟩ := List.any_eq_true.mp hval
      exact absurd (of_decide_eq_true (by simpa [isTargetTag] using hdec))
        (h s hs)

/-- C1: for a release-point target, `shouldFlagStory` returns `true` iff —
among the tags that parse and whose major is not below the target's — there
is a hotfix-point tag with minor strictly below the target's minor whose
maximum `hm` beats every qualifying release-point minor (or no qualifying
release-point tag exists), and no tag is exactly the target.  In particular
an issue with no parseable tags is never flagged. -/
theorem shouldFlagStory_iff (tags : List String) (target : Version)
    (hpatch : target.patch = 0) :
    (shouldFlagStory tags target = true ↔
      (∃ hm, hm ∈ hotfixMinors tags target ∧
          (∀ x ∈ hotfixMinors tags target, x ≤ hm) ∧
          (releaseMinors tags target = [] ∨
            ∃ rm, rm ∈ releaseMinors tags target ∧
              (∀ x ∈ releaseMinors tags target, x ≤ rm) ∧ rm < hm)) ∧
        ∀ s ∈ tags, parseVersion s ≠ some target) ∧
    ((∀ s ∈ tags, parseVersion s = none) → shouldFlagStory tags target = false) := by
  have hiff : shouldFlagStory tags target = true ↔
      (∃ hm, hm ∈ hotfixMinors tags target ∧
          (∀ x ∈ hotfixMinors tags target, x ≤ hm) ∧
          (releaseMinors tags target = [] ∨
            ∃ rm, rm ∈ releaseMinors tags target ∧
              (∀ x ∈ releaseMinors tags target, x ≤ rm) ∧ rm < hm)) ∧
        ∀ s ∈ tags, parseVersion s ≠ some target := by
    by_cases hempty : tags.isEmpty
    · have hnil : tags = [] := by
        cases tags with
        | nil => rfl
        | cons a l => exact Bool.noConfusion hempty
      subst hnil
      simp [shouldFlagStory, hotfixMinors]
    · unfold shouldFlagStory
      rw [if_neg hempty]
      obtain ⟨h1, h2, h3⟩ := foldl_flagStep target tags ⟨none, none, false⟩
      simp only [omax] at h1 h2
      rw [Bool.false_or] at h3
      unfold flagResult
      rw [h1, h2, h3]
      cases hH : listMax (hotfixMinors tags target) with
      | none =>
        have hHnil : hotfixMinors tags target = [] :=
          (listMax_eq_none_iff _).mp hH
        simp [hHnil]
      | some hmax =>
        have hspec := (listMax_eq_some_iff _ _).mp hH
        simp only [Bool.and_eq_true, Bool.not_eq_true']
        cases hR : listMax (releaseMinors tags target) with
        | none =>
          have hRnil : releaseMinors tags target = [] :=
            (listMax_eq_none_iff _).mp hR
          constructor
          · rintro ⟨-, hany⟩
            exact ⟨⟨hmax, hspec.1, hspec.2, Or.inl hRnil⟩,
              (any_isTargetTag_false_iff tags target).mp hany⟩
          · rintro ⟨-, hnot⟩
            exact ⟨rfl, (any_isTargetTag_false_iff tags target).mpr hnot⟩
        | some rmax =>
          have hrspec := (listMax_eq_some_iff _ _).mp hR
          constructor
          · rintro ⟨hlt, hany⟩
            exact ⟨⟨hmax, hspec.1, hspec.2,
              Or.inr ⟨rmax, hrspec.1, hrspec.2, of_decide_eq_true hlt⟩⟩,
              (any_isTargetTag_false_iff tags target).mp hany⟩
          · rintro ⟨⟨hm, hmem, hub, hdisj⟩, hnot⟩
            have heq : hm = hmax :=
              Nat.le_antisymm (hspec.2 hm hmem) (hub hmax hspec.1)
            subst heq
            rcases hdisj with hnil | ⟨rm, hrmem, hrub, hrlt⟩
            · rw [hnil] at hR
              exact Option.noConfusion hR
            · have hre : rm = rmax :=
                Nat.le_antisymm (hrspec.2 rm hrmem) (hrub rmax hrspec.1)
              subst hre
              exact ⟨decide_eq_true hrlt,
                (any_isTargetTag_false_iff tags target).mpr hnot⟩
  refine ⟨hiff, ?_⟩
  intro hall
  cases hres : shouldFlagStory tags target with
  | false => rfl
  | true =>
    exfalso
    obtain ⟨⟨hm, hmem, -⟩, -⟩ := hiff.mp hres
    obtain ⟨s, hs, hcontrib⟩ := List.mem_filterMap.mp hmem
    unfold hotfixMinorContrib at hcontrib
    rw [hall s hs] at hcontrib
    exact Option.noConfusion hcontrib

/-- Witness for C1: the specification's flagging scenario — tags
`{"9.91.0", "9.92.3"}`, release-point target `9.93.0`. -/
theorem shouldFlagStory_iff_witness :
    (⟨9, 93, 0⟩ : Version).patch = 0 ∧
      ((shouldFlagStory ["9.91.0", "9.92.3"] ⟨9, 93, 0⟩ = true ↔
        (∃ hm, hm ∈ hotfixMinors ["9.91.0", "9.92.3"] ⟨9, 93, 0⟩ ∧
            (∀ x ∈ hotfixMinors ["9.91.0", "9.92.3"] ⟨9, 93, 0⟩, x ≤ hm) ∧
            (releaseMinors ["9.91.0", "9.92.3"] ⟨9, 93, 0⟩ = [] ∨
              ∃ rm, rm ∈ releaseMinors ["9.91.0", "9.92.3"] ⟨9, 93, 0⟩ ∧
                (∀ x ∈ releaseMinors ["9.91.0", "9.92.3"] ⟨9, 93, 0⟩, x ≤ rm) ∧
                rm < hm)) ∧
          ∀ s ∈ ["9.91.0", "9.92.3"], parseVersion s ≠ some ⟨9, 93, 0⟩) ∧
        ((∀ s ∈ ["9.91.0", "9.92.3"], parseVersion s = none) →
          shouldFlagStory ["9.91.0", "9.92.3"] ⟨9, 93, 0⟩ = false)) :=
  ⟨rfl, shouldFlagStory_iff ["9.91.0", "9.92.3"] ⟨9, 93, 0⟩ rfl⟩

/-- C2 counterexample: the tag `"10.5.1"` has major 10, different from the
target major 9, yet it is not ignored — `shouldFlagStory` treats its minor 5
as hotfix evidence.  With the tag the issue is flagged; removing every tag
whose major differs from the target's leaves the empty set, which is not
flagged — so removing differing-major tags changes the result, contradicting
the claim that they have no effect. -/
theorem shouldFlagStory_higher_major_counterexample :
    ¬ (shouldFlagStory ["10.5.1"] ⟨9, 93, 0⟩ =
        shouldFlagStory [] ⟨9, 93, 0⟩) := by
  decide

/-- A tag is kept by the lower-major filter when it is unparseable or its
major is at least the target's. -/
def keepsMajorTag (target : Version) (s : String) : Bool :=
  match parseVersion s with
  | some p => decide (target.major ≤ p.major)
  | none => true

theorem flagStep_skipped (target : Version) (st : FlagState) (s : String)
    (h : keepsMajorTag target s = false) : flagStep target st s = st := by
  unfold keepsMajorTag at h
  unfold flagStep
  cases hp : parseVersion s with
  | none => rw [hp] at h
  | some p =>
    rw [hp] at h
    have hlt : p.major < target.major := by
      have h' : decide (target.major ≤ p.major) = false := h
      have := of_decide_eq_false h'
      omega
    dsimp only
    rw [if_pos hlt]

theorem foldl_flagStep_all_skipped (target : Version) (l : List String)
    (hall : ∀ s ∈ l, keepsMajorTag target s = false) (st : FlagState) :
    l.foldl (flagStep target) st = st := by
  induction l generalizing st with
  | nil => rfl
  | cons s l ih =>
    simp only [List.foldl_cons]
    rw [flagStep_skipped target st s (hall s (by simp))]
    exact ih (fun a ha => hall a (by simp [ha])) st

theorem foldl_flagStep_filter (target : Version) (l : List String)
    (st : FlagState) :
    (l.filter (keepsMajorTag target)).foldl (flagStep target) st
      = l.foldl (flagStep target) st := by
  induction l generalizing st with
  | nil => rfl
  | cons s l ih =>
    by_cases h : keepsMajorTag target s = true
    · rw [List.filter_cons_of_pos h]
      simp only [List.foldl_cons]
      exact ih (flagStep target st s)
    · rw [List.filter_cons_of_neg (by simpa using h)]
      simp only [List.foldl_cons]
      rw [flagStep_skipped target st s (by simpa using h)]
      exact ih st

/-- C2 (amended): only tags whose major is strictly *below* the target's are
ignored by `shouldFlagStory`; removing every such lower-major tag leaves the
result unchanged.  (Tags with a *higher* major do affect the result — see the
counterexample.) -/
theorem shouldFlagStory_lower_major_irrelevant (tags : List String)
    (target : Version) :
    shouldFlagStory (tags.filter (keepsMajorTag target)) target
      = shouldFlagStory tags target := by
  by_cases htags : tags = []
  · subst htags
    rfl
  · by_cases hf : tags.filter (keepsMajorTag target) = []
    · have hall : ∀ s ∈ tags, keepsMajorTag target s = false := by
        intro s hs
        by_contra hc
        have : s ∈ tags.filter (keepsMajorTag target) :=
          List.mem_filter.mpr ⟨hs, by
            cases hv : keepsMajorTag target s with
            | false => exact absurd hv hc
            | true => rfl⟩
        rw [hf] at this
        exact List.not_mem_nil s this
      have hfold : tags.foldl (flagStep target) ⟨none, none, false⟩
          = ⟨none, none, false⟩ :=
        foldl_flagStep_all_skipped target tags hall _
      rw [hf]
      show false = shouldFlagStory tags target
      unfold shouldFlagStory
      rw [if_neg (by simpa using htags), hfold]
      rfl
    · unfold shouldFlagStory
      rw [if_neg (by simpa using hf), if_neg (by simpa using htags),
        foldl_flagStep_filter]

/-! ## The booking ledger (`src/server/hotfix-booking.js`) -/

/-- A deployed change-management ticket as reshaped by `fetchDeployedCMs` /
`fetchCMsByVersion`. -/
structure CM where
  key : String
  summary : String
  status : String
  components : List String
  fixVersions : List String
  clientEnvironments : List String
  targetDeploymentDate : Option String
  reporter : Option String
deriving DecidableEq, Repr

/-- One booking record of the persisted ledger. -/
structure Booking where
  id : String
  version : String
  components : List String
  clientEnvironments : List String
  bookedBy : String
  bookedAt : String
  status : String
deriving DecidableEq, Repr

/-- The persisted ledger document `{ bookings: [...] }`. -/
structure BookingsData where
  bookings : List Booking
deriving DecidableEq, Repr

/-- The state of the persisted ledger file as observed by `loadBookings`:
absent, holding well-formed data, holding content `JSON.parse` rejects, or
failing to read (`fs` throws). -/
inductive FileStore where
  | missing
  | okData (d : BookingsData)
  | corrupt
  | readError
deriving DecidableEq, Repr

/-- `loadBookings`: returns the parsed file when it exists and parses;
the `catch` block swallows both read errors and parse errors, and in every
non-success case `{ bookings: [] }` is returned. -/
def loadBookings : FileStore → BookingsData
  | .okData d => d
  | _ => ⟨[]⟩

/-- `saveBookings`: whole-file rewrite of the ledger document. -/
def saveBookings (d : BookingsData) : FileStore := .okData d

/-- Result of the reconciliation fragment of `calculateNextVersion`
(lines 161–178): the resulting store, whether `saveBookings` was called,
and how many bookings were evicted. -/
structure ReconcileOut where
  store : FileStore
  wrote : Bool
  evicted : Nat
deriving DecidableEq, Repr

/-- The auto-cleanup fragment of `calculateNextVersion`: filter out bookings
whose version is in `deployedVersions`, and save only if the count dropped. -/
def reconcile (deployedVersions : List String) (store : FileStore) :
    ReconcileOut :=
  let d := loadBookings store
  let remaining := d.bookings.filter
    (fun b => !(deployedVersions.contains b.version))
  if remaining.length < d.bookings.length then
    ⟨saveBookings ⟨remaining⟩, true, d.bookings.length - remaining.length⟩
  else ⟨store, false, d.bookings.length - remaining.length⟩

/-- C4: reconciliation is idempotent — for every ledger-store state and
every deployed-version set, running `reconcile` a second time with the same
set evicts zero bookings and leaves the store exactly as after the first
run. -/
theorem filter_booking_idem (S : List String) (l : List Booking) :
    (l.filter (fun b => !(S.contains b.version))).filter
        (fun b => !(S.contains b.version))
      = l.filter (fun b => !(S.contains b.version)) :=
  List.filter_eq_self.mpr (fun _ ha => (List.mem_filter.mp ha).2)

theorem reconcile_idempotent (S : List String) (store : FileStore) :
    (reconcile S (reconcile S store).store).evicted = 0 ∧
      (reconcile S (reconcile S store).store).store
        = (reconcile S store).store := by
  simp only [reconcile]
  split <;> rename_i hlt
  · simp only [loadBookings, saveBookings]
    rw [filter_booking_idem]
    rw [if_neg (by omega)]
    exact ⟨Nat.sub_self _, rfl⟩
  · have hle := List.length_filter_le
      (fun b => !(S.contains b.version)) (loadBookings store).bookings
    dsimp only
    exact ⟨by omega, rfl⟩

/-- C6: `loadBookings` silently turns a read failure or corrupted ledger
file into the empty ledger `{ bookings: [] }` — it does not fail the
operation in progress, contradicting the specification's requirement that a
ledger read failure must never be treated as an empty ledger. -/
theorem loadBookings_error_yields_empty :
    loadBookings .readError = ⟨[]⟩ ∧ loadBookings .corrupt = ⟨[]⟩ :=
  ⟨rfl, rfl⟩

/-! ## The comparator sort (`Array.prototype.sort` with `compareVersions`) -/

/-- Stable insertion of `x` into `l`, placing `x` before the first element
it compares `<= 0` against. -/
def insertSorted {α : Type} (le : α → α → Bool) (x : α) : List α → List α
  | [] => [x]
  | y :: ys => if le x y then x :: y :: ys else y :: insertSorted le x ys

/-- A stable comparator sort: the semantics of JavaScript
`sort(comparator)` (ascending in the comparator). -/
def sortJS {α : Type} (le : α → α → Bool) (l : List α) : List α :=
  l.foldr (insertSorted le) []

theorem insertSorted_perm {α : Type} (le : α → α → Bool) (x : α)
    (l : List α) : List.Perm (insertSorted le x l) (x :: l) := by
  induction l with
  | nil => exact List.Perm.refl _
  | cons y ys ih =>
    unfold insertSorted
    split
    · exact List.Perm.refl _
    · exact (ih.cons y).trans (List.Perm.swap x y ys)

theorem sortJS_perm {α : Type} (le : α → α → Bool) (l : List α) :
    List.Perm (sortJS le l) l := by
  induction l with
  | nil => exact List.Perm.refl _
  | cons x l ih =>
    show List.Perm (insertSorted le x (sortJS le l)) (x :: l)
    exact (insertSorted_perm le x (sortJS le l)).trans (ih.cons x)

theorem insertSorted_pairwise {α : Type} (le : α → α → Bool)
    (htrans : ∀ a b c, le a b = true → le b c = true → le a c = true)
    (htot : ∀ a b, le a b = true ∨ le b a = true)
    (x : α) (l : List α) (h : l.Pairwise (fun a b => le a b = true)) :
    (insertSorted le x l).Pairwise (fun a b => le a b = true) := by
  induction l with
  | nil => simp [insertSorted]
  | cons y ys ih =>
    rcases List.pairwise_cons.mp h with ⟨hy, hys⟩
    unfold insertSorted
    split <;> rename_i hxy
    · refine List.pairwise_cons.mpr ⟨?_, h⟩
      intro z hz
      rcases List.mem_cons.mp hz with rfl | hz
      · exact hxy
      · exact htrans x y z hxy (hy z hz)
    · refine List.pairwise_cons.mpr ⟨?_, ih hys⟩
      intro z hz
      have hz' : z ∈ x :: ys := (insertSorted_perm le x ys).mem_iff.mp hz
      rcases List.mem_cons.mp hz' with hzx | hz'
      · rw [hzx]
        rcases htot x y with h1 | h1
        · exact absurd h1 hxy
        · exact h1
      · exact hy z hz'

theorem sortJS_pairwise {α : Type} (le : α → α → Bool)
    (htrans : ∀ a b c, le a b = true → le b c = true → le a c = true)
    (htot : ∀ a b, le a b = true ∨ le b a = true)
    (l : List α) : (sortJS le l).Pairwise (fun a b => le a b = true) := by
  induction l with
  | nil => simp [sortJS]
  | cons x l ih => exact insertSorted_pairwise le htrans htot x (sortJS le l) ih

theorem pairwise_getLast {α : Type} {R : α → α → Prop} (l : List α)
    (h : l.Pairwise R) (hne : l ≠ []) :
    ∀ x ∈ l, x = l.getLast hne ∨ R x (l.getLast hne) := by
  induction l with
  | nil => exact absurd rfl hne
  | cons a t ih =>
    intro x hx
    cases t with
    | nil =>
      rcases List.mem_cons.mp hx with rfl | hx
      · exact Or.inl rfl
      · exact absurd hx (List.not_mem_nil x)
    | cons b t' =>
      have hlast : (a :: b :: t').getLast hne = (b :: t').getLast (by simp) :=
        List.getLast_cons _
      rcases List.mem_cons.mp hx with rfl | hx
      · right
        rw [hlast]
        exact (List.pairwise_cons.mp h).1 _ (List.getLast_mem _)
      · rcases ih (List.pairwise_cons.mp h).2 (by simp) x hx with h1 | h1
        · left
          rw [hlast]
          exact h1
        · right
          rw [hlast]
          exact h1

theorem getLastD_eq_getLast {α : Type} (l : List α) (hne : l ≠ []) (d : α) :
    l.getLastD d = l.getLast hne := by
  cases l with
  | nil => exact absurd rfl hne
  | cons a t =>
    rw [List.getLastD_eq_getLast?, List.getLast?_eq_getLast _ hne]
    rfl

/-- The last element of a comparator sort is a maximum of the input. -/
theorem sortJS_getLastD_max {α : Type} (le : α → α → Bool)
    (htrans : ∀ a b c, le a b = true → le b c = true → le a c = true)
    (htot : ∀ a b, le a b = true ∨ le b a = true)
    (hrefl : ∀ a, le a a = true)
    (l : List α) (hne : l ≠ []) (d : α) :
    (sortJS le l).getLastD d ∈ l ∧
      ∀ x ∈ l, le x ((sortJS le l).getLastD d) = true := by
  have hperm := sortJS_perm le l
  have hsne : sortJS le l ≠ [] := by
    intro h
    rw [h] at hperm
    exact hne hperm.symm.eq_nil
  have hgl : (sortJS le l).getLastD d = (sortJS le l).getLast hsne :=
    getLastD_eq_getLast _ hsne d
  have hpw := sortJS_pairwise le htrans htot l
  constructor
  · rw [hgl]
    exact hperm.mem_iff.mp (List.getLast_mem hsne)
  · intro x hx
    have hx' : x ∈ sortJS le l := hperm.mem_iff.mpr hx
    rw [hgl]
    rcases pairwise_getLast _ hpw hsne x hx' with h1 | h1
    · rw [h1]
      exact hrefl _
    · exact h1

/-! ## Next-version computation (`calculateNextVersion`) -/

/-- The comparator `compareVersions` as a boolean "less or equal". -/
def verLe (a b : String) : Bool := decide (compareVersions a b ≤ 0)

theorem verLe_refl (a : String) : verLe a a = true :=
  decide_eq_true ((compareVersions_le_iff a a).mpr (vle_refl _))

theorem verLe_trans (a b c : String) (h₁ : verLe a b = true)
    (h₂ : verLe b c = true) : verLe a c = true :=
  decide_eq_true ((compareVersions_le_iff a c).mpr
    (vle_trans ((compareVersions_le_iff a b).mp (of_decide_eq_true h₁))
      ((compareVersions_le_iff b c).mp (of_decide_eq_true h₂))))

theorem verLe_total (a b : String) : verLe a b = true ∨ verLe b a = true := by
  rcases vle_total (hbParseVersion a) (hbParseVersion b) with h | h
  · exact Or.inl (decide_eq_true ((compareVersions_le_iff a b).mpr h))
  · exact Or.inr (decide_eq_true ((compareVersions_le_iff b a).mpr h))

/-- Rendering of a version triple back to a string, as the template literal
`` `${major}.${minor}.${patch}` `` does. -/
def verString (v : Version) : String :=
  Nat.repr v.major ++ "." ++ Nat.repr v.minor ++ "." ++ Nat.repr v.patch

/-- The well-formed version tags of the deployed CMs, in iteration order —
`allVersions`/`deployedVersions` of `calculateNextVersion` lines 151–159. -/
def deployedTags (cms : List CM) : List String :=
  cms.flatMap (fun cm => cm.fixVersions.filter isVersionString)

/-- Result part of `calculateNextVersion`. -/
inductive NextVersionResult where
  | noData
  | ok (currentHighest nextVersion baseVersion : String)
deriving DecidableEq, Repr

/-- Full outcome of `calculateNextVersion`: resulting store, whether the
ledger file was written, and the returned value. -/
structure CalcOut where
  store : FileStore
  wrote : Bool
  result : NextVersionResult
deriving DecidableEq, Repr

/-- `calculateNextVersion` of `src/server/hotfix-booking.js`: collect
well-formed deployed versions, auto-clean the ledger (`reconcile`), append
the remaining well-formed booked versions, and return the successor of the
highest version (`sort` + last element). -/
def calculateNextVersion (cms : List CM) (store : FileStore) : CalcOut :=
  let deployedVersions := deployedTags cms
  let r := reconcile deployedVersions store
  let remaining := (loadBookings r.store).bookings
  let allVersions :=
    deployedVersions ++ (remaining.map (fun b => b.version)).filter isVersionString
  if allVersions.isEmpty then ⟨r.store, r.wrote, .noData⟩
  else
    let sorted := sortJS verLe allVersions
    let highestVersion := sorted.getLastD ""
    let parsed := hbParseVersion highestVersion
    ⟨r.store, r.wrote,
      .ok highestVersion
        (verString ⟨parsed.major, parsed.minor, parsed.patch + 1⟩)
        (verString ⟨parsed.major, parsed.minor, 0⟩)⟩

/-- The ledger after eviction of deployed bookings. -/
def reconciledBookings (cms : List CM) (d : BookingsData) : List Booking :=
  d.bookings.filter (fun b => !((deployedTags cms).contains b.version))

/-- The union (with multiplicity) of deployed versions and the versions of
the post-reconciliation bookings. -/
def unionVersions (cms : List CM) (d : BookingsData) : List String :=
  deployedTags cms ++ (reconciledBookings cms d).map (fun b => b.version)

theorem filter_length_eq_self {α : Type} (p : α → Bool) (l : List α)
    (h : (l.filter p).length = l.length) : l.filter p = l := by
  induction l with
  | nil => rfl
  | cons a t ih =>
    rw [List.filter_cons] at h ⊢
    split at h <;> rename_i hp
    · rw [if_pos hp, ih (by simpa using h)]
    · have := List.length_filter_le p t
      rw [List.length_cons] at h
      exact absurd h (by omega)

theorem reconcile_okData (D : List String) (d : BookingsData) :
    loadBookings (reconcile D (.okData d)).store
      = ⟨d.bookings.filter (fun b => !(D.contains b.version))⟩ := by
  obtain ⟨bs⟩ := d
  simp only [reconcile]
  split <;> rename_i h
  · rfl
  · simp only [loadBookings] at h ⊢
    have hle := List.length_filter_le (fun b => !(D.contains b.version)) bs
    have heq := filter_length_eq_self (fun b => !(D.contains b.version)) bs
      (by omega)
    rw [heq]

theorem reconcile_no_evict (D : List String) (d : BookingsData)
    (h : ∀ b ∈ d.bookings, (D.contains b.version) = false) :
    reconcile D (.okData d) = ⟨.okData d, false, 0⟩ := by
  have hfe : d.bookings.filter (fun b => !(D.contains b.version)) = d.bookings :=
    List.filter_eq_self.mpr (fun b hb => by rw [h b hb]; rfl)
  simp only [reconcile, loadBookings]
  rw [hfe, if_neg (by omega), Nat.sub_self]

theorem filter_length_lt_of_mem_not {α : Type} (p : α → Bool) (l : List α)
    (h : ∃ a ∈ l, p a = false) : (l.filter p).length < l.length := by
  induction l with
  | nil =>
    obtain ⟨a, ha, -⟩ := h
    exact absurd ha (List.not_mem_nil a)
  | cons a t ih =>
    obtain ⟨b, hb, hpb⟩ := h
    rw [List.filter_cons]
    rcases List.mem_cons.mp hb with rfl | hb
    · rw [if_neg (by simp [hpb])]
      have := List.length_filter_le p t
      simp only [List.length_cons]
      omega
    · split
      · simp only [List.length_cons]
        exact Nat.succ_lt_succ (ih ⟨b, hb, hpb⟩)
      · have := ih ⟨b, hb, hpb⟩
        simp only [List.length_cons]
        omega

theorem reconcile_evict (D : List String) (d : BookingsData)
    (h : ∃ b ∈ d.bookings, (D.contains b.version) = true) :
    reconcile D (.okData d) =
      ⟨.okData ⟨d.bookings.filter (fun b => !(D.contains b.version))⟩, true,
        d.bookings.length
          - (d.bookings.filter (fun b => !(D.contains b.version))).length⟩ := by
  obtain ⟨b, hbmem, hbdep⟩ := h
  have hlt := filter_length_lt_of_mem_not (fun b => !(D.contains b.version))
    d.bookings ⟨b, hbmem, by
      show (!(D.contains b.version)) = false
      rw [hbdep]
      rfl⟩
  simp only [reconcile, loadBookings, saveBookings]
  rw [if_pos hlt]

/-- C3: `calculateNextVersion` first reconciles the ledger against the
deployed versions (evicting exactly the bookings whose version is deployed),
then takes the union of the deployed versions and the remaining bookings'
versions; an empty union yields the no-data result, otherwise it returns the
maximum of the union under the Version total order as `currentHighest`,
its patch successor as `nextVersion`, and its minor's release point as
`baseVersion`. -/
theorem calculateNextVersion_spec (cms : List CM) (d : BookingsData)
    (hb : ∀ b ∈ d.bookings, isVersionString b.version = true) :
    loadBookings (calculateNextVersion cms (.okData d)).store
        = ⟨reconciledBookings cms d⟩ ∧
      (unionVersions cms d = [] →
        (calculateNextVersion cms (.okData d)).result = .noData) ∧
      (unionVersions cms d ≠ [] →
        ∃ hv, (calculateNextVersion cms (.okData d)).result
            = .ok hv
              (verString ⟨(hbParseVersion hv).major, (hbParseVersion hv).minor,
                (hbParseVersion hv).patch + 1⟩)
              (verString ⟨(hbParseVersion hv).major,
                (hbParseVersion hv).minor, 0⟩) ∧
          hv ∈ unionVersions cms d ∧
          ∀ s ∈ unionVersions cms d,
            vle (hbParseVersion s) (hbParseVersion hv)) := by
  have hrec := reconcile_okData (deployedTags cms) d
  have hfilt : ((reconciledBookings cms d).map (fun b => b.version)).filter
      isVersionString = (reconciledBookings cms d).map (fun b => b.version) :=
    List.filter_eq_self.mpr (by
      intro v hv
      obtain ⟨b, hbmem, rfl⟩ := List.mem_map.mp hv
      exact hb b (List.mem_of_mem_filter hbmem))
  have hrec2 : loadBookings (reconcile (deployedTags cms) (.okData d)).store
      = ⟨reconciledBookings cms d⟩ := hrec
  simp only [calculateNextVersion]
  rw [hrec2]
  dsimp only
  rw [hfilt]
  unfold unionVersions
  refine ⟨?_, ?_, ?_⟩
  · split <;> exact hrec2
  · intro hU
    rw [hU]
    rfl
  · intro hU
    rw [if_neg (by simpa using hU)]
    dsimp only
    obtain ⟨hmem, hmax⟩ := sortJS_getLastD_max verLe verLe_trans verLe_total
      verLe_refl _ hU ""
    refine ⟨_, rfl, hmem, ?_⟩
    intro s hs
    exact (compareVersions_le_iff _ _).mp (of_decide_eq_true (hmax s hs))

/-- A sample deployed CM for the specification's next-version scenario. -/
def cmEx : CM :=
  ⟨"CM-100", "demo", "Deployment Completed", ["Core"],
    ["9.92.10", "9.92.9"], ["Acme"], none, none⟩

/-- Witness for C3: the specification's scenario — deployed versions
`{"9.92.10", "9.92.9"}` and an empty ledger. -/
theorem calculateNextVersion_spec_witness :
    loadBookings (calculateNextVersion [cmEx] (.okData ⟨[]⟩)).store
        = ⟨reconciledBookings [cmEx] ⟨[]⟩⟩ ∧
      (unionVersions [cmEx] ⟨[]⟩ = [] →
        (calculateNextVersion [cmEx] (.okData ⟨[]⟩)).result = .noData) ∧
      (unionVersions [cmEx] ⟨[]⟩ ≠ [] →
        ∃ hv, (calculateNextVersion [cmEx] (.okData ⟨[]⟩)).result
            = .ok hv
              (verString ⟨(hbParseVersion hv).major, (hbParseVersion hv).minor,
                (hbParseVersion hv).patch + 1⟩)
              (verString ⟨(hbParseVersion hv).major,
                (hbParseVersion hv).minor, 0⟩) ∧
          hv ∈ unionVersions [cmEx] ⟨[]⟩ ∧
          ∀ s ∈ unionVersions [cmEx] ⟨[]⟩,
            vle (hbParseVersion s) (hbParseVersion hv)) :=
  calculateNextVersion_spec [cmEx] ⟨[]⟩
    (by intro b hb; exact absurd hb (List.not_mem_nil b))

/-- C10: the next-version computation writes the ledger file only when it
evicts at least one booking.  If no booking's version is deployed, no write
happens and the stored ledger is exactly the input; if some booking's
version is deployed, one write happens and the stored ledger is exactly the
input minus the deployed-version bookings, every other booking kept
field-for-field. -/
theorem calculateNextVersion_frame (cms : List CM) (d : BookingsData) :
    ((∀ b ∈ d.bookings, ((deployedTags cms).contains b.version) = false) →
      (calculateNextVersion cms (.okData d)).wrote = false ∧
        (calculateNextVersion cms (.okData d)).store = .okData d) ∧
    ((∃ b ∈ d.bookings, ((deployedTags cms).contains b.version) = true) →
      (calculateNextVersion cms (.okData d)).wrote = true ∧
        (calculateNextVersion cms (.okData d)).store
          = .okData ⟨d.bookings.filter
              (fun b => !((deployedTags cms).contains b.version))⟩) := by
  constructor
  · intro hnone
    have hr := reconcile_no_evict (deployedTags cms) d hnone
    simp only [calculateNextVersion]
    rw [hr]
    split <;> exact ⟨rfl, rfl⟩
  · intro hex
    have hr := reconcile_evict (deployedTags cms) d hex
    simp only [calculateNextVersion]
    rw [hr]
    split <;> exact ⟨rfl, rfl⟩

/-- A deployed CM carrying the version of the sample booking below. -/
def cmEx2 : CM :=
  ⟨"CM-101", "demo2", "Done", ["Core"], ["9.92.11"], ["Acme"], none, none⟩

/-- A sample booking. -/
def bookingEx : Booking :=
  ⟨"HB-1", "9.92.11", ["Core"], ["Acme"], "alice", "t0", "booked"⟩

/-- Witness for C10: a ledger whose single booking has been deployed is
written back with that booking evicted. -/
theorem calculateNextVersion_frame_witness :
    (calculateNextVersion [cmEx2] (.okData ⟨[bookingEx]⟩)).wrote = true ∧
      (calculateNextVersion [cmEx2] (.okData ⟨[bookingEx]⟩)).store
        = .okData ⟨([bookingEx] : List Booking).filter
            (fun b => !((deployedTags [cmEx2]).contains b.version))⟩ :=
  (calculateNextVersion_frame [cmEx2] ⟨[bookingEx]⟩).2
    ⟨bookingEx, by decide, by decide⟩

/-! ## Booking (`POST /hotfix-booking/book`) -/

/-- The outcomes of the booking route: a 400 validation rejection, a 409
duplicate-version conflict carrying the existing booking, or success
carrying the created booking. -/
inductive BookResult where
  | validationError (msg : String)
  | duplicate (existing : Booking)
  | success (booking : Booking)
deriving DecidableEq, Repr

/-- The booking route handler: validate inputs, reject an already-booked
version with the conflicting booking attached, otherwise append one new
booking (id `HB-${Date.now()}`, timestamp `toISOString()`, both passed in
as the observed clock values) and persist. -/
def book (store : FileStore) (version : String)
    (components clientEnvironments : List String) (bookedBy : Option String)
    (nowMs nowIso : String) : FileStore × BookResult :=
  if version = "" then
    (store, .validationError
      "Missing required fields: version, components, clientEnvironments")
  else if components.isEmpty then
    (store, .validationError "At least one component is required")
  else if clientEnvironments.isEmpty then
    (store, .validationError "At least one client environment is required")
  else
    match (loadBookings store).bookings.find? (fun b => b.version == version) with
    | some existingBooking => (store, .duplicate existingBooking)
    | none =>
      (saveBookings ⟨(loadBookings store).bookings ++
          [⟨"HB-" ++ nowMs, version, components, clientEnvironments,
            bookedBy.getD "Unknown", nowIso, "booked"⟩]⟩,
        .success ⟨"HB-" ++ nowMs, version, components, clientEnvironments,
          bookedBy.getD "Unknown", nowIso, "booked"⟩)

/-- At most one booking per distinct version string (the route compares
`b.version === version` on the raw strings). -/
def DistinctVersions (l : List Booking) : Prop :=
  l.Pairwise (fun a b => a.version ≠ b.version)

instance (l : List Booking) : Decidable (DistinctVersions l) := by
  unfold DistinctVersions
  infer_instance

theorem reconcile_sublist (s : FileStore) (dep : List String) :
    (loadBookings (reconcile dep s).store).bookings.Sublist
      (loadBookings s).bookings := by
  simp only [reconcile]
  split
  · exact List.filter_sublist _
  · exact List.Sublist.refl _

theorem book_preserves_distinct (s : FileStore) (v : String)
    (cs cls : List String) (by_ : Option String) (ms iso : String)
    (h : DistinctVersions (loadBookings s).bookings) :
    DistinctVersions (loadBookings (book s v cs cls by_ ms iso).1).bookings := by
  unfold book
  by_cases hv : v = ""
  · rw [if_pos hv]
    exact h
  · rw [if_neg hv]
    by_cases hcs : cs.isEmpty
    · rw [if_pos hcs]
      exact h
    · rw [if_neg hcs]
      by_cases hcls : cls.isEmpty
      · rw [if_pos hcls]
        exact h
      · rw [if_neg hcls]
        cases hfind : (loadBookings s).bookings.find?
            (fun b => b.version == v) with
        | some ex => exact h
        | none =>
          have hno := List.find?_eq_none.mp hfind
          show DistinctVersions ((loadBookings s).bookings ++
            [⟨"HB-" ++ ms, v, cs, cls, by_.getD "Unknown", iso, "booked"⟩])
          unfold DistinctVersions at h ⊢
          rw [List.pairwise_append]
          refine ⟨h, List.pairwise_singleton _ _, ?_⟩
          intro a ha b hb
          rw [List.mem_singleton] at hb
          subst hb
          have := hno a ha
          simpa using this

/-- One externally observable mutation of the persisted ledger: a booking
request or a reconciliation pass. -/
inductive LedgerStep : FileStore → FileStore → Prop where
  | bookStep (s : FileStore) (version : String)
      (components clientEnvironments : List String) (bookedBy : Option String)
      (nowMs nowIso : String) :
      LedgerStep s (book s version components clientEnvironments bookedBy
        nowMs nowIso).1
  | reconcileStep (s : FileStore) (deployed : List String) :
      LedgerStep s (reconcile deployed s).store

/-- Reachability of a ledger store by any sequence of bookings and
reconciliations. -/
def LedgerReach : FileStore → FileStore → Prop :=
  Relation.ReflTransGen LedgerStep

/-- C5 (amended): the per-version-string uniqueness invariant of the
ledger.  Booking an already-present version string is rejected with the
conflicting existing booking attached and the ledger unchanged; booking a
fresh version string appends exactly one booking and keeps the version
strings pairwise distinct; reconciliation only removes bookings; hence
every store reachable from a distinct-version-string ledger by booking and
reconciliation steps still has pairwise distinct booking version strings.
(Uniqueness per version *value* fails: two distinct strings denoting the
same parsed triple can both be booked — see the counterexample.) -/
theorem booking_ledger_invariant :
    (∀ (d : BookingsData) (v : String) (cs cls : List String)
        (by_ : Option String) (ms iso : String),
        DistinctVersions d.bookings → v ≠ "" → cs ≠ [] → cls ≠ [] →
        ((∃ b ∈ d.bookings, b.version = v) →
          ∃ ex, book (.okData d) v cs cls by_ ms iso
              = (.okData d, .duplicate ex) ∧
            ex ∈ d.bookings ∧ ex.version = v) ∧
        ((∀ b ∈ d.bookings, b.version ≠ v) →
          (book (.okData d) v cs cls by_ ms iso).1
              = .okData ⟨d.bookings ++
                  [⟨"HB-" ++ ms, v, cs, cls, by_.getD "Unknown", iso,
                    "booked"⟩]⟩ ∧
            DistinctVersions
              (loadBookings (book (.okData d) v cs cls by_ ms iso).1).bookings)) ∧
    (∀ (s : FileStore) (dep : List String),
        (loadBookings (reconcile dep s).store).bookings.Sublist
          (loadBookings s).bookings) ∧
    (∀ s s', DistinctVersions (loadBookings s).bookings → LedgerReach s s' →
        DistinctVersions (loadBookings s').bookings) := by
  refine ⟨?_, reconcile_sublist, ?_⟩
  · intro d v cs cls by_ ms iso hdist hv hcs hcls
    constructor
    · rintro ⟨b, hbmem, hbv⟩
      have hsome : ((loadBookings (.okData d)).bookings.find?
          (fun b => b.version == v)).isSome := by
        rw [List.find?_isSome]
        exact ⟨b, hbmem, by simp [hbv]⟩
      obtain ⟨ex, hex⟩ := Option.isSome_iff_exists.mp hsome
      refine ⟨ex, ?_, List.mem_of_find?_eq_some hex, ?_⟩
      · unfold book
        rw [if_neg hv, if_neg (by simpa using hcs),
          if_neg (by simpa using hcls), hex]
      · have := List.find?_some hex
        simpa using this
    · intro hno
      have hnone : (loadBookings (.okData d)).bookings.find?
          (fun b => b.version == v) = none := by
        rw [List.find?_eq_none]
        intro b hbmem
        simp [hno b hbmem]
      constructor
      · unfold book
        rw [if_neg hv, if_neg (by simpa using hcs),
          if_neg (by simpa using hcls), hnone]
        rfl
      · exact book_preserves_distinct (.okData d) v cs cls by_ ms iso hdist
  · intro s s' hdist hreach
    induction hreach with
    | refl => exact hdist
    | tail hsteps hstep ih =>
      cases hstep with
      | bookStep v cs cls by_ ms iso =>
        exact book_preserves_distinct _ v cs cls by_ ms iso ih
      | reconcileStep dep =>
        exact List.Pairwise.sublist (reconcile_sublist _ dep) ih

/-- Witness for C5: a one-booking ledger with version `"9.92.11"`; re-booking
that version conflicts, booking a fresh one appends exactly one booking. -/
theorem booking_ledger_invariant_witness :
    ((∃ b ∈ (⟨[bookingEx]⟩ : BookingsData).bookings, b.version = "9.92.11") →
      ∃ ex, book (.okData ⟨[bookingEx]⟩) "9.92.11" ["Core"] ["Acme"]
          (some "bob") "2" "t1" = (.okData ⟨[bookingEx]⟩, .duplicate ex) ∧
        ex ∈ (⟨[bookingEx]⟩ : BookingsData).bookings ∧
        ex.version = "9.92.11") ∧
    ((∀ b ∈ (⟨[bookingEx]⟩ : BookingsData).bookings, b.version ≠ "9.92.11") →
      (book (.okData ⟨[bookingEx]⟩) "9.92.11" ["Core"] ["Acme"]
          (some "bob") "2" "t1").1
          = .okData ⟨(⟨[bookingEx]⟩ : BookingsData).bookings ++
              [⟨"HB-" ++ "2", "9.92.11", ["Core"], ["Acme"],
                (some "bob").getD "Unknown", "t1", "booked"⟩]⟩ ∧
        DistinctVersions (loadBookings (book (.okData ⟨[bookingEx]⟩) "9.92.11"
            ["Core"] ["Acme"] (some "bob") "2" "t1").1).bookings) :=
  booking_ledger_invariant.1 ⟨[bookingEx]⟩ "9.92.11" ["Core"] ["Acme"]
    (some "bob") "2" "t1" (by decide) (by decide) (by decide) (by decide)

/-! ## The client×component version matrix (`GET /hotfix-booking/client-versions`) -/

/-- One cell of the version matrix: `{ version, cmKey, deployedAt }`. -/
structure MatrixEntry where
  version : String
  cmKey : String
  deployedAt : Option String
deriving DecidableEq, Repr

/-- `versionMatrix[client][component] = e` (point update of the nested
object). -/
def mUpdate (m : String → String → Option MatrixEntry)
    (client component : String) (e : MatrixEntry) :
    String → String → Option MatrixEntry :=
  fun c k => if c = client ∧ k = component then some e else m c k

/-- The replace-if-strictly-greater accumulator:
`if (!existing || compareVersions(version, existing.version) > 0)`. -/
def matrixStep (acc : Option MatrixEntry) (c : MatrixEntry) :
    Option MatrixEntry :=
  match acc with
  | none => some c
  | some e => if compareVersions c.version e.version > 0 then some c else acc

/-- Innermost loop body of the matrix builder: skip an ill-formed version,
otherwise replace the `(client, component)` cell when strictly greater (or
absent). -/
def versionStep (cm : CM) (client component : String)
    (m : String → String → Option MatrixEntry) (version : String) :
    String → String → Option MatrixEntry :=
  if isVersionString version then
    match m client component with
    | none =>
      mUpdate m client component ⟨version, cm.key, cm.targetDeploymentDate⟩
    | some existing =>
      if compareVersions version existing.version > 0 then
        mUpdate m client component ⟨version, cm.key, cm.targetDeploymentDate⟩
      else m
  else m

/-- `cm.fixVersions.forEach(version => ...)`. -/
def componentStep (cm : CM) (client : String)
    (m : String → String → Option MatrixEntry) (component : String) :
    String → String → Option MatrixEntry :=
  cm.fixVersions.foldl (versionStep cm client component) m

/-- `cm.components.forEach(component => ...)`. -/
def clientStep (cm : CM) (m : String → String → Option MatrixEntry)
    (client : String) : String → String → Option MatrixEntry :=
  cm.components.foldl (componentStep cm client) m

/-- `cm.clientEnvironments.forEach(client => ...)`. -/
def cmStep (m : String → String → Option MatrixEntry) (cm : CM) :
    String → String → Option MatrixEntry :=
  cm.clientEnvironments.foldl (clientStep cm) m

/-- The matrix builder of the `client-versions` route: fold all deployed CMs
over the empty matrix. -/
def buildVersionMatrix (cms : List CM) :
    String → String → Option MatrixEntry :=
  cms.foldl cmStep (fun _ _ => none)

/-- The candidate entries one CM contributes (its well-formed version tags
with provenance). -/
def candEntries (cm : CM) : List MatrixEntry :=
  (cm.fixVersions.filter isVersionString).map
    (fun v => ⟨v, cm.key, cm.targetDeploymentDate⟩)

/-- All candidate entries for the pair `(cl, co)`, in loop order. -/
def pairCands (cms : List CM) (cl co : String) : List MatrixEntry :=
  cms.flatMap (fun cm =>
    cm.clientEnvironments.flatMap (fun c =>
      cm.components.flatMap (fun k =>
        if cl = c ∧ co = k then candEntries cm else [])))

theorem versionStep_other (cm : CM) (client component : String)
    (m : String → String → Option MatrixEntry) (version : String)
    (cl co : String) (hne : ¬(cl = client ∧ co = component)) :
    versionStep cm client component m version cl co = m cl co := by
  unfold versionStep
  by_cases hval : isVersionString version = true
  · rw [if_pos hval]
    cases hm : m client component with
    | none =>
      show mUpdate m client component _ cl co = m cl co
      unfold mUpdate
      rw [if_neg hne]
    | some e =>
      show (if compareVersions version e.version > 0 then
          mUpdate m client component
            ⟨version, cm.key, cm.targetDeploymentDate⟩
        else m) cl co = m cl co
      by_cases hcmp : compareVersions version e.version > 0
      · rw [if_pos hcmp]
        show mUpdate m client component _ cl co = m cl co
        unfold mUpdate
        rw [if_neg hne]
      · rw [if_neg hcmp]
  · rw [if_neg hval]

theorem versionStep_at_key (cm : CM) (client component : String)
    (m : String → String → Option MatrixEntry) (version : String) :
    versionStep cm client component m version client component
      = if isVersionString version then
          matrixStep (m client component)
            ⟨version, cm.key, cm.targetDeploymentDate⟩
        else m client component := by
  unfold versionStep matrixStep
  by_cases hval : isVersionString version = true
  · simp only [if_pos hval]
    cases hm : m client component with
    | none =>
      show mUpdate m client component _ client component = _
      unfold mUpdate
      rw [if_pos ⟨rfl, rfl⟩]
    | some e =>
      show (if compareVersions version e.version > 0 then
          mUpdate m client component
            ⟨version, cm.key, cm.targetDeploymentDate⟩
        else m) client component
        = if compareVersions version e.version > 0 then
            some ⟨version, cm.key, cm.targetDeploymentDate⟩
          else some e
      by_cases hcmp : compareVersions version e.version > 0
      · rw [if_pos hcmp, if_pos hcmp]
        show mUpdate m client component _ client component = _
        unfold mUpdate
        rw [if_pos ⟨rfl, rfl⟩]
      · rw [if_neg hcmp, if_neg hcmp]
        exact hm
  · simp only [if_neg hval]

theorem verFold_at (cm : CM) (client component : String) (vs : List String)
    (m : String → String → Option MatrixEntry) (cl co : String) :
    (vs.foldl (versionStep cm client component) m) cl co
      = (if cl = client ∧ co = component then
            (vs.filter isVersionString).map
              (fun v => (⟨v, cm.key, cm.targetDeploymentDate⟩ : MatrixEntry))
          else []).foldl matrixStep (m cl co) := by
  induction vs generalizing m with
  | nil => split <;> rfl
  | cons v vs ih =>
    simp only [List.foldl_cons]
    rw [ih]
    by_cases hkey : cl = client ∧ co = component
    · obtain ⟨h1, h2⟩ := hkey
      subst h1
      subst h2
      rw [if_pos ⟨rfl, rfl⟩, if_pos ⟨rfl, rfl⟩, versionStep_at_key]
      rw [List.filter_cons]
      by_cases hval : isVersionString v = true
      · rw [if_pos hval, if_pos hval, List.map_cons, List.foldl_cons]
      · rw [if_neg hval, if_neg hval]
    · rw [if_neg hkey, if_neg hkey, versionStep_other cm client component m v
        cl co hkey]

theorem compFold_at (cm : CM) (client : String) (comps : List String)
    (m : String → String → Option MatrixEntry) (cl co : String) :
    (comps.foldl (componentStep cm client) m) cl co
      = (comps.flatMap (fun k =>
            if cl = client ∧ co = k then candEntries cm else [])).foldl
          matrixStep (m cl co) := by
  induction comps generalizing m with
  | nil => rfl
  | cons k rest ih =>
    simp only [List.foldl_cons, List.flatMap_cons]
    rw [ih]
    show _ = List.foldl matrixStep (m cl co) (_ ++ _)
    rw [List.foldl_append]
    congr 1
    show componentStep cm client m k cl co = _
    unfold componentStep candEntries
    exact verFold_at cm client k cm.fixVersions m cl co

theorem clientFold_at (cm : CM) (clients : List String)
    (m : String → String → Option MatrixEntry) (cl co : String) :
    (clients.foldl (clientStep cm) m) cl co
      = (clients.flatMap (fun c =>
            cm.components.flatMap (fun k =>
              if cl = c ∧ co = k then candEntries cm else []))).foldl
          matrixStep (m cl co) := by
  induction clients generalizing m with
  | nil => rfl
  | cons c rest ih =>
    simp only [List.foldl_cons, List.flatMap_cons]
    rw [ih]
    show _ = List.foldl matrixStep (m cl co) (_ ++ _)
    rw [List.foldl_append]
    congr 1
    show clientStep cm m c cl co = _
    unfold clientStep
    exact compFold_at cm c cm.components m cl co

theorem buildVersionMatrix_eq_foldl (cms : List CM) (cl co : String) :
    buildVersionMatrix cms cl co
      = (pairCands cms cl co).foldl matrixStep none := by
  have hgen : ∀ (cms : List CM) (m : String → String → Option MatrixEntry),
      (cms.foldl cmStep m) cl co
        = (cms.flatMap (fun cm =>
              cm.clientEnvironments.flatMap (fun c =>
                cm.components.flatMap (fun k =>
                  if cl = c ∧ co = k then candEntries cm else [])))).foldl
            matrixStep (m cl co) := by
    intro cms
    induction cms with
    | nil => intro m; rfl
    | cons cm rest ih =>
      intro m
      simp only [List.foldl_cons, List.flatMap_cons]
      rw [ih]
      show _ = List.foldl matrixStep (m cl co) (_ ++ _)
      rw [List.foldl_append]
      congr 1
      show cmStep m cm cl co = _
      unfold cmStep
      exact clientFold_at cm cm.clientEnvironments m cl co
  exact hgen cms (fun _ _ => none)

theorem find?_append_none {α : Type} (p : α → Bool) {l : List α}
    (l' : List α) (h : l.find? p = none) :
    (l ++ l').find? p = l'.find? p := by
  induction l with
  | nil => rfl
  | cons a t ih =>
    have hpa : ¬ p a = true := by
      intro hpa
      rw [List.find?_cons_of_pos _ hpa] at h
      exact Option.noConfusion h
    rw [List.find?_cons_of_neg _ hpa] at h
    rw [List.cons_append, List.find?_cons_of_neg _ hpa]
    exact ih h

theorem find?_append_some {α : Type} (p : α → Bool) {l : List α}
    (l' : List α) {e : α} (h : l.find? p = some e) :
    (l ++ l').find? p = some e := by
  induction l with
  | nil => exact Option.noConfusion h
  | cons a t ih =>
    by_cases hpa : p a = true
    · rw [List.find?_cons_of_pos _ hpa] at h
      rw [List.cons_append, List.find?_cons_of_pos _ hpa]
      exact h
    · rw [List.find?_cons_of_neg _ hpa] at h
      rw [List.cons_append, List.find?_cons_of_neg _ hpa]
      exact ih h

theorem foldl_matrixStep_none_iff (cands : List MatrixEntry) :
    cands.foldl matrixStep none = none ↔ cands = [] := by
  induction cands using List.reverseRecOn with
  | nil => simp
  | append_singleton l c ih =>
    rw [List.foldl_append]
    simp only [List.foldl_cons, List.foldl_nil]
    constructor
    · intro h
      exfalso
      cases hacc : List.foldl matrixStep none l with
      | none =>
        rw [hacc] at h
        exact Option.noConfusion h
      | some e =>
        rw [hacc] at h
        unfold matrixStep at h
        dsimp only at h
        split at h <;> exact Option.noConfusion h
    · intro h
      exact absurd h (by simp)

theorem foldl_matrixStep_char (cands : List MatrixEntry) :
    ∀ e, cands.foldl matrixStep none = some e →
      e ∈ cands ∧
        (∀ c ∈ cands,
          vle (hbParseVersion c.version) (hbParseVersion e.version)) ∧
        cands.find? (fun c =>
            decide (hbParseVersion c.version = hbParseVersion e.version))
          = some e := by
  induction cands using List.reverseRecOn with
  | nil => exact fun e h => Option.noConfusion h
  | append_singleton l c ih =>
    intro e h
    rw [List.foldl_append] at h
    simp only [List.foldl_cons, List.foldl_nil] at h
    by_cases hl : l = []
    · subst hl
      simp only [List.foldl_nil] at h
      have hce : c = e := Option.some.inj h
      subst hce
      refine ⟨by simp, ?_, ?_⟩
      · intro x hx
        rw [List.nil_append, List.mem_singleton] at hx
        subst hx
        exact vle_refl _
      · rw [List.nil_append]
        exact List.find?_cons_of_pos _ (by simp)
    · obtain ⟨e', he'⟩ : ∃ e', List.foldl matrixStep none l = some e' := by
        cases hacc : List.foldl matrixStep none l with
        | none => exact absurd ((foldl_matrixStep_none_iff l).mp hacc) hl
        | some x => exact ⟨x, rfl⟩
      rw [he'] at h
      obtain ⟨hmem, hub, hfind⟩ := ih e' he'
      unfold matrixStep at h
      dsimp only at h
      by_cases hcmp : compareVersions c.version e'.version > 0
      · rw [if_pos hcmp] at h
        have hce : c = e := Option.some.inj h
        subst hce
        have hlt : ¬ vle (hbParseVersion c.version) (hbParseVersion e'.version) :=
          (compareVersions_pos_iff _ _).mp hcmp
        have helt : vle (hbParseVersion e'.version) (hbParseVersion c.version) :=
          (vle_total _ _).resolve_left hlt
        refine ⟨by simp, ?_, ?_⟩
        · intro x hx
          rcases List.mem_append.mp hx with hx | hx
          · exact vle_trans (hub x hx) helt
          · rw [List.mem_singleton.mp hx]
            exact vle_refl _
        · have hnone : l.find? (fun x =>
              decide (hbParseVersion x.version = hbParseVersion c.version))
                = none := by
            rw [List.find?_eq_none]
            intro x hx hpx
            have hxeq : hbParseVersion x.version = hbParseVersion c.version :=
              of_decide_eq_true hpx
            have h1 := hub x hx
            rw [hxeq] at h1
            exact hlt h1
          rw [find?_append_none _ _ hnone]
          exact List.find?_cons_of_pos _ (by simp)
      · rw [if_neg hcmp] at h
        have hee : e' = e := Option.some.inj h
        subst hee
        have hle : vle (hbParseVersion c.version) (hbParseVersion e'.version) :=
          (compareVersions_le_iff _ _).mp (by omega)
        refine ⟨List.mem_append_left _ hmem, ?_, ?_⟩
        · intro x hx
          rcases List.mem_append.mp hx with hx | hx
          · exact hub x hx
          · rw [List.mem_singleton.mp hx]
            exact hle
        · exact find?_append_some _ _ hfind

/-- C8: for every pair `(client, component)`, the matrix has an entry iff
some record pairs them with at least one parseable version tag; the entry's
version attains the maximum, under the Version total order, of all parseable
versions deployed to that pair; and — since a cell is replaced only by a
strictly greater version — the entry is the first candidate in record order
whose version attains that maximum, so on ties the first-seen record's
provenance (`cmKey`, `deployedAt`) is kept. -/
theorem buildVersionMatrix_spec (cms : List CM) (client component : String) :
    (buildVersionMatrix cms client component = none ↔
      pairCands cms client component = []) ∧
    ∀ e, buildVersionMatrix cms client component = some e →
      e ∈ pairCands cms client component ∧
      (∀ c ∈ pairCands cms client component,
        vle (hbParseVersion c.version) (hbParseVersion e.version)) ∧
      (pairCands cms client component).find?
          (fun c =>
            decide (hbParseVersion c.version = hbParseVersion e.version))
        = some e := by
  rw [buildVersionMatrix_eq_foldl]
  exact ⟨foldl_matrixStep_none_iff _, fun e h => foldl_matrixStep_char _ e h⟩

/-- First deployment record of the matrix tie/maximum scenario. -/
def cmA : CM :=
  ⟨"CM-1", "a", "Done", ["Core"], ["1.2.0"], ["Acme"], some "d1", none⟩

/-- Second deployment record of the matrix scenario, carrying the higher
version. -/
def cmB : CM :=
  ⟨"CM-2", "b", "Done", ["Core"], ["1.3.0"], ["Acme"], some "d2", none⟩

/-- Witness for C8: two records for `("Acme", "Core")` with versions
`1.2.0` then `1.3.0`; the stored entry is `1.3.0` with the second record's
provenance. -/
theorem buildVersionMatrix_spec_witness :
    (⟨"1.3.0", "CM-2", some "d2"⟩ : MatrixEntry)
        ∈ pairCands [cmA, cmB] "Acme" "Core" ∧
      (∀ c ∈ pairCands [cmA, cmB] "Acme" "Core",
        vle (hbParseVersion c.version)
          (hbParseVersion
            (⟨"1.3.0", "CM-2", some "d2"⟩ : MatrixEntry).version)) ∧
      (pairCands [cmA, cmB] "Acme" "Core").find?
          (fun c => decide (hbParseVersion c.version
            = hbParseVersion
                (⟨"1.3.0", "CM-2", some "d2"⟩ : MatrixEntry).version))
        = some ⟨"1.3.0", "CM-2", some "d2"⟩ :=
  (buildVersionMatrix_spec [cmA, cmB] "Acme" "Core").2
    ⟨"1.3.0", "CM-2", some "d2"⟩ (by decide)

/-! ## History windowing (`GET /hotfix-booking/history`) -/

/-- One row of the hotfix history, deployed or booked; fields absent for a
given row type are `none`. -/
structure HistoryEntry where
  version : String
  type : String
  cmKey : Option String
  summary : Option String
  status : String
  components : List String
  clientEnvironments : List String
  deployedAt : Option String
  reporter : Option String
  bookedAt : Option String
  bookedBy : Option String
deriving DecidableEq, Repr

/-- The `type: 'deployed'` row pushed for a matching CM version tag. -/
def mkDeployedEntry (cm : CM) (version : String) : HistoryEntry :=
  ⟨version, "deployed", some cm.key, some cm.summary, cm.status,
    cm.components, cm.clientEnvironments, cm.targetDeploymentDate,
    cm.reporter, none, none⟩

/-- The `type: 'booked'` row pushed for a matching booking. -/
def mkBookedEntry (b : Booking) : HistoryEntry :=
  ⟨b.version, "booked", none, none, "Booked", b.components,
    b.clientEnvironments, none, some b.bookedBy, some b.bookedAt,
    some b.bookedBy⟩

/-- The deployed rows: one per well-formed version tag equal to
`(currentMajor, targetMinor, *)` per CM, in iteration order. -/
def historyDeployedEntries (currentMajor targetMinor : Nat)
    (versionCMs : List CM) : List HistoryEntry :=
  versionCMs.flatMap (fun cm =>
    cm.fixVersions.filterMap (fun version =>
      if isVersionString version then
        if (hbParseVersion version).major = currentMajor ∧
            (hbParseVersion version).minor = targetMinor then
          some (mkDeployedEntry cm version)
        else none
      else none))

/-- One iteration of the `bookings.forEach` loop: a booking whose (lenient)
parse matches the target line is appended unless its exact version string
already appears among the `deployed` rows collected so far. -/
def historyBookedStep (currentMajor targetMinor : Nat)
    (hx : List HistoryEntry) (b : Booking) : List HistoryEntry :=
  if (hbParseVersion b.version).major = currentMajor ∧
      (hbParseVersion b.version).minor = targetMinor then
    if hx.any (fun h => h.version == b.version && h.type == "deployed") then hx
    else hx ++ [mkBookedEntry b]
  else hx

/-- The history list of the route: deployed rows, then qualifying booked
rows, sorted by the version comparator descending. -/
def historyHotfixes (currentMajor targetMinor : Nat) (versionCMs : List CM)
    (bookings : List Booking) : List HistoryEntry :=
  sortJS (fun x y => decide (compareVersions y.version x.version ≤ 0))
    (bookings.foldl (historyBookedStep currentMajor targetMinor)
      (historyDeployedEntries currentMajor targetMinor versionCMs))

/-- The booked row a booking contributes, relative to the deployed rows. -/
def bookedContrib (m1 m2 : Nat) (dep : List HistoryEntry) (b : Booking) :
    Option HistoryEntry :=
  if (hbParseVersion b.version).major = m1 ∧
      (hbParseVersion b.version).minor = m2 then
    if dep.any (fun h => h.version == b.version && h.type == "deployed") then
      none
    else some (mkBookedEntry b)
  else none

/-- The booked rows, declaratively: bookings matching the target line whose
version string is not among the deployed rows. -/
def historyBookedSpec (m1 m2 : Nat) (dep : List HistoryEntry)
    (bookings : List Booking) : List HistoryEntry :=
  bookings.filterMap (bookedContrib m1 m2 dep)

theorem historyBookedSpec_cons_none (m1 m2 : Nat) (dep : List HistoryEntry)
    (b : Booking) (bs : List Booking) (h : bookedContrib m1 m2 dep b = none) :
    historyBookedSpec m1 m2 dep (b :: bs) = historyBookedSpec m1 m2 dep bs := by
  unfold historyBookedSpec
  rw [List.filterMap_cons, h]

theorem historyBookedSpec_cons_some (m1 m2 : Nat) (dep : List HistoryEntry)
    (b : Booking) (bs : List Booking) (e : HistoryEntry)
    (h : bookedContrib m1 m2 dep b = some e) :
    historyBookedSpec m1 m2 dep (b :: bs)
      = e :: historyBookedSpec m1 m2 dep bs := by
  unfold historyBookedSpec
  rw [List.filterMap_cons, h]

theorem historyBooked_fold (m1 m2 : Nat) (bookings : List Booking)
    (dep : List HistoryEntry) :
    ∀ extra : List HistoryEntry, (∀ h ∈ extra, ¬ h.type = "deployed") →
      bookings.foldl (historyBookedStep m1 m2) (dep ++ extra)
        = dep ++ (extra ++ historyBookedSpec m1 m2 dep bookings) := by
  induction bookings with
  | nil =>
    intro extra hex
    simp [historyBookedSpec]
  | cons b bs ih =>
    intro extra hex
    simp only [List.foldl_cons]
    by_cases hmatch : (hbParseVersion b.version).major = m1 ∧
        (hbParseVersion b.version).minor = m2
    · have hanyextra : extra.any
          (fun h => h.version == b.version && h.type == "deployed") = false := by
        cases hval : extra.any
            (fun h => h.version == b.version && h.type == "deployed") with
        | false => rfl
        | true =>
          obtain ⟨h0, hmem, hpred⟩ := List.any_eq_true.mp hval
          rw [Bool.and_eq_true] at hpred
          exact absurd (by simpa using hpred.2) (hex h0 hmem)
      have hany : ((dep ++ extra).any
            (fun h => h.version == b.version && h.type == "deployed"))
          = (dep.any (fun h => h.version == b.version && h.type == "deployed")) := by
        rw [List.any_append, hanyextra, Bool.or_false]
      by_cases hdup : dep.any
          (fun h => h.version == b.version && h.type == "deployed") = true
      · have hstep : historyBookedStep m1 m2 (dep ++ extra) b = dep ++ extra := by
          unfold historyBookedStep
          rw [if_pos hmatch, hany, if_pos hdup]
        rw [hstep, ih extra hex]
        rw [historyBookedSpec_cons_none m1 m2 dep b bs (by
          unfold bookedContrib
          rw [if_pos hmatch, if_pos hdup])]
      · have hexx : ∀ h ∈ extra ++ [mkBookedEntry b], ¬ h.type = "deployed" := by
          intro h0 hmem
          rcases List.mem_append.mp hmem with hmem | hmem
          · exact hex h0 hmem
          · rw [List.mem_singleton.mp hmem]
            intro hcontra
            exact absurd hcontra (by unfold mkBookedEntry; simp)
        have hstep : historyBookedStep m1 m2 (dep ++ extra) b
            = dep ++ (extra ++ [mkBookedEntry b]) := by
          unfold historyBookedStep
          rw [if_pos hmatch, hany, if_neg hdup, List.append_assoc]
        rw [hstep, ih (extra ++ [mkBookedEntry b]) hexx]
        rw [historyBookedSpec_cons_some m1 m2 dep b bs (mkBookedEntry b) (by
          unfold bookedContrib
          rw [if_pos hmatch, if_neg hdup])]
        simp [List.append_assoc]
    · have hstep : historyBookedStep m1 m2 (dep ++ extra) b = dep ++ extra := by
        unfold historyBookedStep
        rw [if_neg hmatch]
      rw [hstep, ih extra hex]
      rw [historyBookedSpec_cons_none m1 m2 dep b bs (by
        unfold bookedContrib
        rw [if_neg hmatch])]

/-- C9 (amended): the history window consists of one `deployed` row per
well-formed version tag on the `(M, m)` line per record, plus one `booked`
row for each booking whose version — parsed by the lenient split-based
parser, so an ill-formed version string like `"9.92"` can still match —
lies on the `(M, m)` line and whose exact version string does not occur
among the `deployed` rows; the combined rows are sorted by Version
descending. -/
theorem historyHotfixes_spec (m1 m2 : Nat) (cms : List CM)
    (bookings : List Booking) :
    List.Perm (historyHotfixes m1 m2 cms bookings)
      (historyDeployedEntries m1 m2 cms ++
        historyBookedSpec m1 m2 (historyDeployedEntries m1 m2 cms) bookings) ∧
    (historyHotfixes m1 m2 cms bookings).Pairwise
      (fun a b => vle (hbParseVersion b.version) (hbParseVersion a.version)) := by
  have hfold := historyBooked_fold m1 m2 bookings
    (historyDeployedEntries m1 m2 cms) [] (by intro h hmem; cases hmem)
  rw [List.append_nil] at hfold
  rw [List.nil_append] at hfold
  unfold historyHotfixes
  rw [hfold]
  constructor
  · exact sortJS_perm _ _
  · have hpw := sortJS_pairwise
      (fun x y : HistoryEntry => decide (compareVersions y.version x.version ≤ 0))
      (by
        intro a b c h1 h2
        have v1 := (compareVersions_le_iff _ _).mp (of_decide_eq_true h1)
        have v2 := (compareVersions_le_iff _ _).mp (of_decide_eq_true h2)
        exact decide_eq_true ((compareVersions_le_iff _ _).mpr (vle_trans v2 v1)))
      (by
        intro a b
        rcases vle_total (hbParseVersion b.version) (hbParseVersion a.version)
            with h | h
        · exact Or.inl (decide_eq_true ((compareVersions_le_iff _ _).mpr h))
        · exact Or.inr (decide_eq_true ((compareVersions_le_iff _ _).mpr h)))
      (historyDeployedEntries m1 m2 cms ++
        historyBookedSpec m1 m2 (historyDeployedEntries m1 m2 cms) bookings)
    exact hpw.imp (fun h =>
      (compareVersions_le_iff _ _).mp (of_decide_eq_true h))

/-- A booking with the ill-formed version string `"9.92"`. -/
def bookingInvalid : Booking :=
  ⟨"HB-2", "9.92", ["Core"], ["Acme"], "carol", "t2", "booked"⟩

/-- C9 counterexample: `"9.92"` is not a valid version string, yet — because
the history route parses booking versions with the lenient split-based
parser, which reads `"9.92"` as `(9, 92, 0)` — the booking contributes a
`booked` row for the `9.92.x` line, where the claim says a booking whose
version string is not a valid Version contributes no entry. -/
theorem historyHotfixes_invalid_booking_counterexample :
    isVersionString "9.92" = false ∧
      historyHotfixes 9 92 [] [bookingInvalid]
        = [mkBookedEntry bookingInvalid] := by
  constructor
  · decide
  · decide

/-- A booked version used to exhibit the value-level duplicate. -/
def bookingEx93 : Booking :=
  ⟨"HB-3", "9.92.3", ["Core"], ["Acme"], "dave", "t3", "booked"⟩

/-- C5 counterexample: the duplicate check compares raw version strings, so
over a ledger already holding `"9.92.3"` a booking request for `"09.92.3"`
— a different string denoting the same version value, `(9, 92, 3)`, under
both parsers — is *not* rejected with a duplicate error: it succeeds, and
the resulting ledger, reachable by one booking step, holds two bookings
whose versions are the same version value.  This refutes the claim's
"at most one active booking per distinct version value" invariant. -/
theorem booking_value_duplicate_counterexample :
    parseVersion "9.92.3" = some ⟨9, 92, 3⟩ ∧
      parseVersion "09.92.3" = some ⟨9, 92, 3⟩ ∧
      hbParseVersion "09.92.3" = hbParseVersion "9.92.3" ∧
      DistinctVersions [bookingEx93] ∧
      (book (.okData ⟨[bookingEx93]⟩) "09.92.3" ["Core"] ["Acme"] none
          "7" "t7").2
        = .success ⟨"HB-" ++ "7", "09.92.3", ["Core"], ["Acme"], "Unknown",
            "t7", "booked"⟩ ∧
      (loadBookings (book (.okData ⟨[bookingEx93]⟩) "09.92.3" ["Core"]
            ["Acme"] none "7" "t7").1).bookings
        = [bookingEx93,
            ⟨"HB-" ++ "7", "09.92.3", ["Core"], ["Acme"], "Unknown", "t7",
              "booked"⟩] ∧
      LedgerReach (.okData ⟨[bookingEx93]⟩)
        (book (.okData ⟨[bookingEx93]⟩) "09.92.3" ["Core"] ["Acme"] none
          "7" "t7").1 :=
  ⟨by decide, by decide, by decide, by decide, by decide, by decide,
    Relation.ReflTransGen.single
      (LedgerStep.bookStep _ "09.92.3" ["Core"] ["Acme"] none "7" "t7")⟩
